import Mathlib

/-
Verification of the clyde-go chatbot core: a shallow embedding of the
markov chain (markov package), the mood scale (mood package), the
line-breaking helper (stringutil package), and the message dispatch
loop (clyde package), together with theorems checking the spec claims.

Go strings are modelled as Lean String (logically a list of Char,
matching Go runes for the inputs of interest); Go maps are modelled as
association lists, whose order stands for the fixed per-run iteration
order of a Go map; Go int is modelled as Int. The random source
rand.Intn is modelled as an explicit function argument rng : Int → Int
constrained by ValidRng.
-/

/-! Whitespace tokenization. Models strings.Fields and the fmt.Fscan
token loop (both split on Unicode whitespace; the common ASCII
whitespace set is modelled). -/

def isSpc (c : Char) : Bool :=
  c = ' ' || c = '\t' || c = '\n' || c = '\r' || c.val = 11 || c.val = 12

def fieldsAux : List Char → List Char → List (List Char)
  | [], cur => if cur = [] then [] else [cur.reverse]
  | c :: cs, cur =>
    if isSpc c then
      (if cur = [] then fieldsAux cs [] else cur.reverse :: fieldsAux cs [])
    else fieldsAux cs (c :: cur)

def fields (s : List Char) : List (List Char) := fieldsAux s []

/-- strings.Join(l, sep) for a list of character lists. -/
def joinSep (sep : List Char) : List (List Char) → List Char
  | [] => []
  | [x] => x
  | x :: xs => x ++ sep ++ joinSep sep xs

/-- strings.Fields at the String level. -/
def fieldsS (s : String) : List String := (fields s.data).map (fun l => ⟨l⟩)

/-- strings.Join(l, " ") at the String level. -/
def joinWords : List String → String
  | [] => ("")
  | [x] => x
  | x :: xs => x ++ (" ") ++ joinWords xs

/-- strings.Join(strings.Fields(s), " "), the whitespace normalization
used by StandardBehavior. -/
def normalizeWS (s : String) : String := joinWords (fieldsS s)

/-- strings.ToLower, modelled characterwise. -/
def strToLower (s : String) : String := ⟨s.data.map Char.toLower⟩

/-- strings.Contains on character lists. -/
def containsChars (needle : List Char) : List Char → Bool
  | [] => needle.isEmpty
  | c :: t => needle.isPrefixOf (c :: t) || containsChars needle t

/-! stringutil package: BreakLines. -/

def MaxLine : Int := 70

/-- One iteration of the word loop in stringutil.BreakLines: state is
(finished lines, current line, current length). -/
def breakStep (maxLine : Int) (st : List (List (List Char)) × List (List Char) × Int)
    (w : List Char) : List (List (List Char)) × List (List Char) × Int :=
  let wordLength : Int := (w.length : Int) + 1
  if st.2.2 + wordLength > maxLine ∧ st.2.2 ≠ 0 then
    (st.1 ++ [st.2.1], [w], -1 + wordLength)
  else
    (st.1, st.2.1 ++ [w], st.2.2 + wordLength)

/-- stringutil.BreakLines on a character list. -/
def BreakLines (s : List Char) (maxLine : Int) : List Char :=
  let r := (fields s).foldl (breakStep maxLine) ([], [], -1)
  joinSep ['\n'] ((r.1 ++ [r.2.1]).map (joinSep [' ']))

/-- stringutil.BreakLines at the String level. -/
def stringBreakLines (s : String) (maxLine : Int) : String :=
  ⟨BreakLines s.data maxLine⟩

/-! markov package: the chain. -/

/-- Lookup in an association list modelling a Go map. -/
def alookup {β : Type} : List (String × β) → String → Option β
  | [], _ => none
  | (k1, v) :: rest, k => if k1 = k then some v else alookup rest k

/-- Go map assignment m[k] = v on the association list model: replace
in place, or append a fresh binding. -/
def setAssoc {β : Type} : List (String × β) → String → β → List (String × β)
  | [], k, v => [(k, v)]
  | (k1, v1) :: rest, k, v =>
    if k1 = k then (k, v) :: rest else (k1, v1) :: setAssoc rest k v

/-- The total-weight loop of Chain.NextWord: sums the frequencies of a
suffix map. -/
def sumFreqs (m : List (String × Int)) : Int :=
  m.foldl (fun t p => t + p.2) 0

/-- markov.Chain: a map from prefix-tail keys to suffix frequency
maps, plus the prefix length. -/
structure Chain where
  chain : List (String × List (String × Int))
  prefixLen : Nat
  deriving DecidableEq

/-- markov.NewChain. -/
def NewChain (plen : Nat) : Chain := ⟨[], plen⟩

/-- Prefix.Shift: copy(p, p[1:]) followed by writing the lowercased
word at the last index. The copy leaves the old last element in place
before it is overwritten. -/
def prefixShift (p : List String) (w : String) : List String :=
  (p.drop 1 ++ p.drop (p.length - 1)).set (p.length - 1) (strToLower w)

/-- Chain.Add: for each i in 0..prefixLen, unless i < prefixLen and
p[i] is empty, increment chain[join(p[i:])][s]. -/
def Chain.Add (c : Chain) (p : List String) (s : String) : Chain :=
  let step := fun ch (i : Nat) =>
    if i < c.prefixLen ∧ p.getD i ("") = ("") then ch
    else
      let key := joinWords (p.drop i)
      let m := (alookup ch key).getD []
      setAssoc ch key (setAssoc m s (((alookup m s).getD 0) + 1))
  { c with chain := (List.range (c.prefixLen + 1)).foldl step c.chain }

/-- Chain.Build: scan whitespace-separated tokens, and for each token
call Add with the rolling prefix, then shift the token into the
prefix. The prefix starts as prefixLen empty strings. -/
def Chain.Build (c : Chain) (input : String) : Chain :=
  ((fieldsS input).foldl
    (fun (acc : Chain × List String) s =>
      (acc.1.Add acc.2 s, prefixShift acc.2 s))
    (c, List.replicate c.prefixLen (""))).1

/-- The weighted-selection scan of Chain.NextWord: subtract each
frequency from the cursor n, returning the suffix at which the cursor
becomes ≤ 0; none models falling off the end of the range loop. -/
def pickWord : List (String × Int) → Int → Option String
  | [], _ => none
  | (w, f) :: rest, n => if n - f ≤ 0 then some w else pickWord rest (n - f)

/-- The key strings.Join(p[i:], " ") tried by Chain.NextWord at tail
index i. -/
def tailKey (p : List String) (i : Nat) : String := joinWords (p.drop i)

/-- A chain key is populated when it is present and its suffix map has
positive total weight. -/
def populated (c : Chain) (k : String) : Bool :=
  match alookup c.chain k with
  | some m => decide (0 < sumFreqs m)
  | none => false

/-- The tail loop of Chain.NextWord over the remaining tail indices:
skip a missing key, skip a zero-total key, otherwise draw
rng(total) and run the weighted scan; an exhausted scan falls through
to the next tail. The empty string models the absent result. -/
def nextWordAux (rng : Int → Int) (c : Chain) (p : List String) : List Nat → String
  | [] => ("")
  | i :: is =>
    match alookup c.chain (tailKey p i) with
    | none => nextWordAux rng c p is
    | some m =>
      let total := sumFreqs m
      if total = 0 then nextWordAux rng c p is
      else
        match pickWord m (rng total) with
        | some w => w
        | none => nextWordAux rng c p is

/-- Chain.NextWord: try each tail of the prefix from longest (i = 0)
to shortest (i = prefixLen, the empty key). -/
def Chain.NextWord (rng : Int → Int) (c : Chain) (p : List String) : String :=
  nextWordAux rng c p (List.range (c.prefixLen + 1))

/-- The contract of rand.Intn: on a positive bound it yields a value
in [0, bound). -/
def ValidRng (rng : Int → Int) : Prop :=
  ∀ t : Int, 0 < t → 0 ≤ rng t ∧ rng t < t

/-- The chain data-model invariant from the spec: counts are only ever
incremented (hence positive where present) and suffixes are single
words (nonempty). Established by NewChain and preserved by Add. -/
def ChainWF (c : Chain) : Prop :=
  ∀ k m, (k, m) ∈ c.chain → ∀ w f, (w, f) ∈ m → 0 < f ∧ w ≠ ("")

/-- The word w is recorded under key k of the chain. -/
def recordedUnder (c : Chain) (k w : String) : Prop :=
  ∃ m f, alookup c.chain k = some m ∧ (w, f) ∈ m

/-! Persistence. The Go code serializes the chain map with the
standard encoding/json package, which is not part of this repository.

Modelled from the spec: the persisted chain file is a text-encoded
nested mapping { key: { suffix: count, ... }, ... }; the encoding and
decoding below model json.Encoder.Encode and json.Decoder.Decode of a
map[string]map[string]int at the level of the JSON value tree, and a
file is modelled as Option Json (none for a missing file). -/

inductive Json where
  | num (n : Int)
  | str (s : String)
  | obj (fields : List (String × Json))

/-- Encoding of one suffix frequency map. -/
def encodeSuffixes (m : List (String × Int)) : Json :=
  Json.obj (m.map (fun sf => (sf.1, Json.num sf.2)))

/-- Encoding of the full chain map, as written by Chain.Save. -/
def encodeChainJson (ch : List (String × List (String × Int))) : Json :=
  Json.obj (ch.map (fun kv => (kv.1, encodeSuffixes kv.2)))

/-- Decoding of one suffix frequency map; fails on any non-numeric
field. -/
def decodeSuffixes : List (String × Json) → Option (List (String × Int))
  | [] => some []
  | (w, Json.num n) :: rest =>
    match decodeSuffixes rest with
    | some m => some ((w, n) :: m)
    | none => none
  | _ => none

def decodeChainFields : List (String × Json) → Option (List (String × List (String × Int)))
  | [] => some []
  | (k, Json.obj fs) :: rest =>
    match decodeSuffixes fs, decodeChainFields rest with
    | some m, some ch => some ((k, m) :: ch)
    | _, _ => none
  | _ => none

/-- Decoding of a persisted chain file; fails unless the value is an
object of objects of numbers. -/
def decodeChainJson : Json → Option (List (String × List (String × Int)))
  | Json.obj fs => decodeChainFields fs
  | _ => none

/-- Chain.Save: encode the suffix frequency map (the prefix length is
not persisted). -/
def Chain.Save (c : Chain) : Json := encodeChainJson c.chain

/-- markov.LoadChain: start from NewChain(prefixLen); a missing file
or a failed decode leaves the fresh empty map in place. -/
def LoadChain (file : Option Json) (plen : Nat) : Chain :=
  { chain :=
      match file with
      | none => []
      | some j => (decodeChainJson j).getD []
    prefixLen := plen }

/-! mood package. -/

/-- The largest mood (named max in the source, maxMood in the clyde
package). -/
def maxMood : Int := 7

/-- Mood.Better: the first mood better than the current mood,
saturating at maxMood. -/
def Mood.Better (m : Int) : Int := if m + 1 > maxMood then maxMood else m + 1

/-- Mood.Worse: the first mood worse than the current mood, saturating
at 0. -/
def Mood.Worse (m : Int) : Int := if m - 1 < 0 then 0 else m - 1

inductive MoodOp where
  | better
  | worse
  deriving DecidableEq

/-- A finite sequence of Better and Worse calls applied in order. -/
def applyMoodOps (ops : List MoodOp) (m : Int) : Int :=
  ops.foldl (fun a op => match op with
    | MoodOp.better => Mood.Better a
    | MoodOp.worse => Mood.Worse a) m

/-! clyde package: messages, state, behaviors and dispatch. -/

def sender : String := ("clyde")
def homeClass : String := ("ztoys-dev")
def homeInstance : String := ("clyde")

def LISTEN : Nat := 1
def REPLYHOME : Nat := 2
def FULL : Nat := 3

/-- An incoming zephyr: sender, class, instance, and the two body
fields Body[0] (zsig) and Body[1] (utterance body). -/
structure Msg where
  sender : String
  cls : String
  inst : String
  zsig : String
  body : String
  deriving DecidableEq

/-- An outgoing reply: class, instance, body. -/
structure Reply where
  cls : String
  inst : String
  body : String
  deriving DecidableEq

/-- The state a behavior may read and write: the two markov chains and
the subscription map from class name to policy (the Go zero value 0
stands for absent). -/
structure St where
  chain : Chain
  zsigChain : Chain
  subs : List (String × Nat)
  deriving DecidableEq

/-- c.subs[class] with the Go zero value for a missing class. -/
def subsGet (subs : List (String × Nat)) (cls : String) : Nat :=
  (alookup subs cls).getD 0

/-- A Behavior: evaluates on the state and the message, and reports
whether it was triggered, the updated state, and the replies it sent. -/
abbrev Behavior := St → Msg → Bool × St × List Reply

/-- The unconditional training step of handleMessage: build the main
chain from Body[1] and the zsig chain from Body[0]. -/
def train (st : St) (msg : Msg) : St :=
  { st with
    chain := st.chain.Build msg.body
    zsigChain := st.zsigChain.Build msg.zsig }

/-- The behavior loop of handleMessage: run each behavior in order and
stop after the first one that reports being triggered; effects of
evaluated behaviors are kept either way. -/
def dispatch : List Behavior → St → Msg → St × List Reply
  | [], st, _ => (st, [])
  | b :: bs, st, msg =>
    match b st msg with
    | (true, st1, rs) => (st1, rs)
    | (false, st1, rs) =>
      let r2 := dispatch bs st1 msg
      (r2.1, rs ++ r2.2)

/-- Clyde.handleMessage: ignore Clyde own messages; otherwise train
both chains, then dispatch the behaviors. (The lastInteraction
timestamp update is outside this model.) -/
def handleMessage (bs : List Behavior) (st : St) (msg : Msg) : St × List Reply :=
  if msg.sender = sender then (st, [])
  else dispatch bs (train st msg) msg

/-- StandardBehavior. The regexp engine is the Go standard library,
not part of this repository; the compiled case-insensitive pattern
together with the named-group extraction is modelled by the function
argument mat, which returns the capture key/value map on a match. The
chain-augmentation call Chain.Generate with its random sentence count
is likewise abstracted as gen. On a match: run resp, optionally
augment the response, then consult the per-class policy when the
message is off the home class/instance: absent (0) and LISTEN
suppress the reply, REPLYHOME redirects home unless the raw body
mentions clyde, anything else sends in place. -/
def StandardBehavior (mat : String → Option (List (String × String)))
    (chainFlag : Bool) (gen : St → String → String)
    (resp : St → Msg → List (String × String) → St × String) : Behavior :=
  fun st msg =>
    match mat (normalizeWS msg.body) with
    | none => (false, st, [])
    | some caps =>
      let r1 := resp st msg caps
      let st1 := r1.1
      let response := if chainFlag then gen st1 r1.2 else r1.2
      if msg.cls = homeClass ∧ msg.inst = homeInstance then
        (true, st1, [⟨msg.cls, msg.inst, stringBreakLines response MaxLine⟩])
      else
        match subsGet st1.subs msg.cls with
        | 0 => (true, st1, [])
        | 1 => (true, st1, [])
        | 2 =>
          if containsChars (("clyde").data) (strToLower msg.body).data then
            (true, st1, [⟨msg.cls, msg.inst, stringBreakLines response MaxLine⟩])
          else
            (true, st1, [⟨homeClass, homeInstance, stringBreakLines response MaxLine⟩])
        | _ => (true, st1, [⟨msg.cls, msg.inst, stringBreakLines response MaxLine⟩])

/-- A run of behaviors none of which triggers: relates the starting
state to the final state and the replies emitted along the way. -/
inductive NoTrig (msg : Msg) : List Behavior → St → St → List Reply → Prop where
  | nil : ∀ st, NoTrig msg [] st st []
  | cons : ∀ b bs st st1 st2 rs1 rs2,
      b st msg = (false, st1, rs1) →
      NoTrig msg bs st1 st2 rs2 →
      NoTrig msg (b :: bs) st st2 (rs1 ++ rs2)

/-- A concrete empty state used in concrete evaluations below. -/
def emptySt : St := ⟨⟨[], 2⟩, ⟨[], 1⟩, []⟩

/-- A concrete message from Clyde to itself (the sender equals the
sender constant). -/
def msgSelf : Msg := ⟨("clyde"), ("c1"), ("i1"), ("sig"), ("hello world")⟩

/-- A concrete message from a third party on the home class. -/
def msgOther : Msg := ⟨("alice"), ("ztoys-dev"), ("clyde"), ("sig"), ("hi")⟩

/-- A concrete message from a third party on a non-home class with no
subscription entry. -/
def msgListen : Msg := ⟨("alice"), ("someclass"), ("i1"), ("sig"), ("hello")⟩

/-- A concrete pattern matcher: matches exactly the body hello, with
no capture groups. -/
def matHello : String → Option (List (String × String)) :=
  fun s => if s = ("hello") then some [] else none

/-- A concrete generation function that returns the seed unchanged. -/
def genId : St → String → String := fun _ r => r

/-- A concrete response function with no side effect. -/
def respYo : St → Msg → List (String × String) → St × String :=
  fun s _ _ => (s, ("yo"))

/-! Theorems. Helper lemmas come first, then one theorem per claim
with its witness where the theorem carries hypotheses. -/

theorem moodBetter_bounds (m : Int) (h0 : 0 ≤ m) (h1 : m ≤ maxMood) :
    0 ≤ Mood.Better m ∧ Mood.Better m ≤ maxMood := by
  simp only [Mood.Better, maxMood] at *
  split <;> omega

theorem moodWorse_bounds (m : Int) (h0 : 0 ≤ m) (h1 : m ≤ maxMood) :
    0 ≤ Mood.Worse m ∧ Mood.Worse m ≤ maxMood := by
  simp only [Mood.Worse, maxMood] at *
  split <;> omega

/-- Claim C5: starting anywhere in [0, maxMood], any finite sequence
of Better and Worse calls stays in [0, maxMood]; Better saturates at
maxMood and Worse saturates at 0. -/
theorem mood_sequence_bounded (ops : List MoodOp) (m : Int)
    (h0 : 0 ≤ m) (h1 : m ≤ maxMood) :
    (0 ≤ applyMoodOps ops m ∧ applyMoodOps ops m ≤ maxMood) ∧
    Mood.Better maxMood = maxMood ∧ Mood.Worse 0 = 0 := by
  refine ⟨?_, by decide, by decide⟩
  induction ops generalizing m with
  | nil => exact ⟨h0, h1⟩
  | cons op rest ih =>
    simp only [applyMoodOps, List.foldl] at *
    cases op
    · exact ih (Mood.Better m) (moodBetter_bounds m h0 h1).1 (moodBetter_bounds m h0 h1).2
    · exact ih (Mood.Worse m) (moodWorse_bounds m h0 h1).1 (moodWorse_bounds m h0 h1).2

/-- Witness for C5 at a concrete start and operation sequence. -/
theorem mood_sequence_bounded_witness :
    (0 ≤ applyMoodOps [MoodOp.better, MoodOp.better, MoodOp.worse] 6 ∧
      applyMoodOps [MoodOp.better, MoodOp.better, MoodOp.worse] 6 ≤ maxMood) ∧
    Mood.Better maxMood = maxMood ∧ Mood.Worse 0 = 0 :=
  mood_sequence_bounded [MoodOp.better, MoodOp.better, MoodOp.worse] 6
    (by decide) (by decide)

theorem set_zero_of_length_one {α : Type} (d : List α) (x : α) (h : d.length = 1) :
    d.set 0 x = [x] := by
  cases d with
  | nil => simp at h
  | cons a t =>
    cases t with
    | nil => rfl
    | cons b t2 => simp at h

theorem prefixShift_eq (p : List String) (w : String) (h : 1 ≤ p.length) :
    prefixShift p w = p.drop 1 ++ [strToLower w] := by
  have hd1 : (p.drop 1).length = p.length - 1 := by simp
  have hd2 : (p.drop (p.length - 1)).length = 1 := by simp; omega
  rw [prefixShift, List.set_append, if_neg (by omega)]
  rw [hd1, Nat.sub_self, set_zero_of_length_one _ _ hd2]

/-- Claim C9: for a prefix of length at least 1, Shift drops the
oldest (first) word, moves the remaining words one position toward the
front, puts the lowercased new word last, and keeps the length. -/
theorem prefixShift_spec (p : List String) (w : String) (h : 1 ≤ p.length) :
    prefixShift p w = p.drop 1 ++ [strToLower w] ∧
    (prefixShift p w).length = p.length ∧
    (∀ i, i + 1 < p.length → (prefixShift p w)[i]? = p[i + 1]?) ∧
    (prefixShift p w)[p.length - 1]? = some (strToLower w) := by
  have he := prefixShift_eq p w h
  refine ⟨he, ?_, ?_, ?_⟩
  · rw [he]; simp; omega
  · intro i hi
    rw [he, List.getElem?_append_left (by simp; omega), List.getElem?_drop,
      Nat.add_comm 1 i]
  · rw [he, List.getElem?_append_right (by simp)]
    have h0 : p.length - 1 - (p.drop 1).length = 0 := by simp
    rw [h0]; rfl

/-- Witness for C9 at a concrete prefix and word. -/
theorem prefixShift_spec_witness :
    prefixShift [("a"), ("B")] ("Cd") = [("a"), ("B")].drop 1 ++ [strToLower ("Cd")] ∧
    (prefixShift [("a"), ("B")] ("Cd")).length = ([("a"), ("B")] : List String).length ∧
    (∀ i, i + 1 < ([("a"), ("B")] : List String).length →
      (prefixShift [("a"), ("B")] ("Cd"))[i]? = [("a"), ("B")][i + 1]?) ∧
    (prefixShift [("a"), ("B")] ("Cd"))[([("a"), ("B")] : List String).length - 1]? =
      some (strToLower ("Cd")) :=
  prefixShift_spec [("a"), ("B")] ("Cd") (by decide)

/-- Claim C8: training on an empty text is the identity: the token
scan of Build finds no token, so no Add is performed and the chain is
returned unchanged. -/
theorem build_empty_id (c : Chain) : c.Build ("") = c := rfl

theorem decodeSuffixes_encode (m : List (String × Int)) :
    decodeSuffixes (m.map (fun sf => (sf.1, Json.num sf.2))) = some m := by
  induction m with
  | nil => rfl
  | cons a rest ih =>
    cases a
    simp only [List.map, decodeSuffixes, ih]

theorem decodeChainFields_encode (ch : List (String × List (String × Int))) :
    decodeChainFields (ch.map (fun kv => (kv.1, encodeSuffixes kv.2))) = some ch := by
  induction ch with
  | nil => rfl
  | cons a rest ih =>
    cases a with
    | mk k m =>
      show decodeChainFields ((k, Json.obj (m.map (fun sf => (sf.1, Json.num sf.2)))) ::
        rest.map (fun kv => (kv.1, encodeSuffixes kv.2))) = _
      simp only [decodeChainFields, decodeSuffixes_encode, ih]

theorem decodeChainJson_encode (ch : List (String × List (String × Int))) :
    decodeChainJson (encodeChainJson ch) = some ch := by
  simp only [encodeChainJson, decodeChainJson, decodeChainFields_encode]

/-- Claim C4: saving a chain and loading the produced value with the
same prefix length restores the chain exactly, every key, suffix and
count included. -/
theorem save_load_roundtrip (c : Chain) : LoadChain (some c.Save) c.prefixLen = c := by
  cases c with
  | mk ch plen =>
    simp only [Chain.Save, LoadChain, decodeChainJson_encode, Option.getD_some]

/-- Claim C7: a missing chain file, or a file whose contents fail to
decode, yields the fresh empty chain of the requested prefix length;
loading never fails. -/
theorem load_missing_or_corrupt (plen : Nat) (j : Json) :
    LoadChain none plen = NewChain plen ∧
    (decodeChainJson j = none → LoadChain (some j) plen = NewChain plen) := by
  constructor
  · rfl
  · intro hj
    simp only [LoadChain, hj, Option.getD_none, NewChain]

/-- Witness for C7: the missing file and a concrete non-object file
(which fails to decode) both load as the empty chain. -/
theorem load_missing_or_corrupt_witness :
    LoadChain none 2 = NewChain 2 ∧ LoadChain (some (Json.num 0)) 2 = NewChain 2 :=
  ⟨(load_missing_or_corrupt 2 (Json.num 0)).1,
    (load_missing_or_corrupt 2 (Json.num 0)).2 rfl⟩

theorem dispatch_first_trigger (msg : Msg) (bs1 : List Behavior) (b : Behavior)
    (bs2 : List Behavior) (st0 stm st2 : St) (rsm rs2 : List Reply)
    (hrun : NoTrig msg bs1 st0 stm rsm) (hb : b stm msg = (true, st2, rs2)) :
    dispatch (bs1 ++ b :: bs2) st0 msg = (st2, rsm ++ rs2) := by
  induction hrun with
  | nil st =>
    simp only [List.nil_append, dispatch, hb, List.nil_append]
  | cons b1 bs st st1 stm1 rs1 rsm1 hb1 _ ih =>
    show dispatch (b1 :: (bs ++ b :: bs2)) st msg = _
    simp only [dispatch, hb1]
    rw [ih hb]
    simp

theorem dispatch_none_trigger (msg : Msg) (bs : List Behavior) (st0 : St)
    (hpure : ∀ b ∈ bs, ∀ s : St, (b s msg).1 = false → b s msg = (false, s, []))
    (hnone : ∀ b ∈ bs, (b st0 msg).1 = false) :
    dispatch bs st0 msg = (st0, []) := by
  induction bs with
  | nil => rfl
  | cons b rest ih =>
    have hb : b st0 msg = (false, st0, []) :=
      hpure b (by simp) st0 (hnone b (by simp))
    simp only [dispatch, hb]
    rw [ih (fun b2 h2 => hpure b2 (by simp [h2])) (fun b2 h2 => hnone b2 (by simp [h2]))]
    simp

/-- Counterexample to claim C3 as stated: a message whose sender is
the sender constant is dropped by handleMessage before any training,
so training is not unconditional for every incoming message. -/
theorem handleMessage_self_untrained :
    handleMessage [] emptySt msgSelf = (emptySt, []) ∧
    (train emptySt msgSelf).chain ≠ emptySt.chain := by
  constructor
  · rfl
  · decide

/-- Claim C3 as amended: for every incoming message whose sender is
not Clyde itself, handleMessage trains both chains before dispatch;
dispatch runs the behaviors in list order, the first one that triggers
is the only one executed and the behaviors after it are never reached
(the result does not depend on them); and when every behavior reports
not triggered without side effects, no reply is produced but the
trained state is kept. -/
theorem handleMessage_dispatch_amended (bs : List Behavior) (st : St) (msg : Msg)
    (hs : msg.sender ≠ sender) :
    handleMessage bs st msg = dispatch bs (train st msg) msg ∧
    (∀ bs1 (b : Behavior) bs2 stm st2 rsm rs2, NoTrig msg bs1 (train st msg) stm rsm →
      b stm msg = (true, st2, rs2) →
      dispatch (bs1 ++ b :: bs2) (train st msg) msg = (st2, rsm ++ rs2)) ∧
    ((∀ b ∈ bs, ∀ s : St, (b s msg).1 = false → b s msg = (false, s, [])) →
      (∀ b ∈ bs, (b (train st msg) msg).1 = false) →
      handleMessage bs st msg = (train st msg, [])) := by
  have hh : handleMessage bs st msg = dispatch bs (train st msg) msg := by
    simp only [handleMessage, if_neg hs]
  refine ⟨hh, ?_, ?_⟩
  · intro bs1 b bs2 stm st2 rsm rs2 hrun hb
    exact dispatch_first_trigger msg bs1 b bs2 (train st msg) stm st2 rsm rs2 hrun hb
  · intro hpure hnone
    rw [hh, dispatch_none_trigger msg bs (train st msg) hpure hnone]

/-- Witness for the amended C3 at a concrete message and the empty
behavior list: no behavior triggers, no reply is produced, and the
state keeps the training of both chains. -/
theorem handleMessage_dispatch_amended_witness :
    handleMessage [] emptySt msgOther = (train emptySt msgOther, []) := by
  have h := handleMessage_dispatch_amended [] emptySt msgOther (by decide)
  exact h.2.2 (by intro b hb; simp at hb) (by intro b hb; simp at hb)

/-- Claim C6: on a message off the home class/instance whose class
policy at consultation time is absent (0) or LISTEN, a matching
StandardBehavior reports triggered and sends nothing, and
handleMessage on that message yields no reply at all while the state
passed to the behavior is the trained one. -/
theorem standardBehavior_silent_listen
    (mat : String → Option (List (String × String))) (chainFlag : Bool)
    (gen : St → String → String)
    (resp : St → Msg → List (String × String) → St × String)
    (st : St) (msg : Msg) (caps : List (String × String))
    (hs : msg.sender ≠ sender)
    (hhome : ¬(msg.cls = homeClass ∧ msg.inst = homeInstance))
    (hm : mat (normalizeWS msg.body) = some caps)
    (hpol : subsGet (resp (train st msg) msg caps).1.subs msg.cls = 0 ∨
            subsGet (resp (train st msg) msg caps).1.subs msg.cls = LISTEN) :
    StandardBehavior mat chainFlag gen resp (train st msg) msg =
      (true, (resp (train st msg) msg caps).1, []) ∧
    handleMessage [StandardBehavior mat chainFlag gen resp] st msg =
      ((resp (train st msg) msg caps).1, []) := by
  have hb : StandardBehavior mat chainFlag gen resp (train st msg) msg =
      (true, (resp (train st msg) msg caps).1, []) := by
    simp only [StandardBehavior, hm]
    rw [if_neg hhome]
    rcases hpol with h | h
    · rw [h]
    · rw [show LISTEN = 1 from rfl] at h
      rw [h]
  refine ⟨hb, ?_⟩
  simp only [handleMessage, if_neg hs, dispatch, hb]

/-- Witness for C6 at a concrete behavior, state and message. -/
theorem standardBehavior_silent_listen_witness :
    StandardBehavior matHello false genId respYo (train emptySt msgListen) msgListen =
      (true, train emptySt msgListen, []) ∧
    handleMessage [StandardBehavior matHello false genId respYo] emptySt msgListen =
      (train emptySt msgListen, []) :=
  standardBehavior_silent_listen matHello false genId respYo emptySt msgListen []
    (by decide) (by decide) (by decide) (Or.inl (by decide))

theorem foldl_add_shift (m : List (String × Int)) (t : Int) :
    m.foldl (fun a p => a + p.2) t = t + sumFreqs m := by
  induction m generalizing t with
  | nil => simp [sumFreqs]
  | cons a rest ih =>
    simp only [sumFreqs, List.foldl] at *
    rw [ih (t + a.2), ih (0 + a.2)]
    ring

theorem sumFreqs_cons (a : String × Int) (rest : List (String × Int)) :
    sumFreqs (a :: rest) = a.2 + sumFreqs rest := by
  show List.foldl (fun t p => t + p.2) (0 + a.2) rest = a.2 + sumFreqs rest
  rw [foldl_add_shift]
  omega

theorem sumFreqs_nonneg (m : List (String × Int))
    (h : ∀ wf ∈ m, 0 < wf.2) : 0 ≤ sumFreqs m := by
  induction m with
  | nil => simp [sumFreqs]
  | cons a rest ih =>
    rw [sumFreqs_cons]
    have h1 := h a (by simp)
    have h2 := ih (fun wf hwf => h wf (by simp [hwf]))
    omega

theorem pickWord_mem (m : List (String × Int)) (n : Int)
    (h0 : 0 ≤ n) (h1 : n < sumFreqs m) :
    ∃ w f, pickWord m n = some w ∧ (w, f) ∈ m := by
  induction m generalizing n with
  | nil =>
    simp [sumFreqs] at h1
    omega
  | cons a rest ih =>
    rw [sumFreqs_cons] at h1
    by_cases hc : n - a.2 ≤ 0
    · refine ⟨a.1, a.2, ?_, by simp⟩
      show pickWord ((a.1, a.2) :: rest) n = some a.1
      simp [pickWord, hc]
    · have hrec := ih (n - a.2) (by omega) (by omega)
      rcases hrec with ⟨w, f, hp, hm⟩
      refine ⟨w, f, ?_, by simp [hm]⟩
      show pickWord ((a.1, a.2) :: rest) n = some w
      simp [pickWord, hc, hp]

theorem alookup_mem {β : Type} (l : List (String × β)) (k : String) (v : β)
    (h : alookup l k = some v) : (k, v) ∈ l := by
  induction l with
  | nil => simp [alookup] at h
  | cons a rest ih =>
    rw [show a = (a.1, a.2) from rfl] at h ⊢
    simp only [alookup] at h
    by_cases hc : a.1 = k
    · rw [if_pos hc] at h
      simp at h
      simp [hc, h]
    · rw [if_neg hc] at h
      simp [ih h]

theorem populated_iff (c : Chain) (k : String) :
    populated c k = true ↔ ∃ m, alookup c.chain k = some m ∧ 0 < sumFreqs m := by
  unfold populated
  cases h : alookup c.chain k with
  | none => simp
  | some m => simp

theorem chainWF_at (c : Chain) (hwf : ChainWF c) (k : String) (m : List (String × Int))
    (h : alookup c.chain k = some m) : ∀ w f, (w, f) ∈ m → 0 < f ∧ w ≠ ("") :=
  hwf k m (alookup_mem c.chain k m h)

theorem nextWordAux_skip (rng : Int → Int) (c : Chain) (p : List String)
    (hwf : ChainWF c) (j : Nat) (is : List Nat)
    (hj : populated c (tailKey p j) = false) :
    nextWordAux rng c p (j :: is) = nextWordAux rng c p is := by
  cases hl : alookup c.chain (tailKey p j) with
  | none => simp [nextWordAux, hl]
  | some m =>
    have hpos : ¬ (0 < sumFreqs m) := by
      intro hc
      have ht : populated c (tailKey p j) = true :=
        (populated_iff c (tailKey p j)).mpr ⟨m, hl, hc⟩
      rw [hj] at ht
      exact absurd ht (by simp)
    have hz : sumFreqs m = 0 := by
      have := sumFreqs_nonneg m (fun wf hm =>
        (chainWF_at c hwf _ m hl wf.1 wf.2 (by simpa using hm)).1)
      omega
    simp [nextWordAux, hl, hz]

theorem nextWordAux_none (rng : Int → Int) (c : Chain) (p : List String)
    (hwf : ChainWF c) (is : List Nat)
    (h : ∀ i ∈ is, populated c (tailKey p i) = false) :
    nextWordAux rng c p is = ("") := by
  induction is with
  | nil => rfl
  | cons i rest ih =>
    rw [nextWordAux_skip rng c p hwf i rest (h i (by simp))]
    exact ih (fun j hj => h j (by simp [hj]))

theorem nextWordAux_first (rng : Int → Int) (c : Chain) (p : List String)
    (hwf : ChainWF c) (hr : ValidRng rng) (is1 : List Nat) (i0 : Nat) (is2 : List Nat)
    (h1 : ∀ j ∈ is1, populated c (tailKey p j) = false)
    (h0 : populated c (tailKey p i0) = true) :
    ∃ m f, alookup c.chain (tailKey p i0) = some m ∧
      (nextWordAux rng c p (is1 ++ i0 :: is2), f) ∈ m ∧
      nextWordAux rng c p (is1 ++ i0 :: is2) ≠ ("") := by
  induction is1 with
  | nil =>
    rcases (populated_iff c (tailKey p i0)).mp h0 with ⟨m, hl, ht⟩
    rcases hr (sumFreqs m) ht with ⟨hr0, hr1⟩
    rcases pickWord_mem m (rng (sumFreqs m)) hr0 hr1 with ⟨w, f, hp, hm⟩
    have hwne := (chainWF_at c hwf _ m hl w f hm).2
    have hv : nextWordAux rng c p ([] ++ i0 :: is2) = w := by
      simp only [List.nil_append, nextWordAux, hl,
        if_neg (by omega : ¬ sumFreqs m = 0), hp]
    rw [hv]
    exact ⟨m, f, hl, hm, hwne⟩
  | cons j rest ih =>
    have hskip : nextWordAux rng c p (j :: (rest ++ i0 :: is2)) =
        nextWordAux rng c p (rest ++ i0 :: is2) :=
      nextWordAux_skip rng c p hwf j (rest ++ i0 :: is2) (h1 j (by simp))
    rw [List.cons_append, hskip]
    exact ih (fun j2 hj2 => h1 j2 (by simp [hj2]))

theorem range_split (i0 n : Nat) (h : i0 ≤ n) :
    ∃ rest, List.range (n + 1) = List.range i0 ++ i0 :: rest := by
  have hn : n + 1 = i0 + (n + 1 - i0) := by omega
  have h2 : n + 1 - i0 = (n - i0) + 1 := by omega
  refine ⟨(List.range (n - i0)).map (fun j => i0 + Nat.succ j), ?_⟩
  rw [hn, List.range_add, h2, List.range_succ_eq_map]
  simp [List.map_map, Function.comp]

/-- Claim C1: under the chain invariant, whenever some tail key of the
prefix (the empty key included) is populated, NextWord returns a word
recorded under the longest populated tail key and never the absent
empty-string result; and the absent result occurs exactly when no tail
key is populated. -/
theorem nextWord_fallback (c : Chain) (p : List String) (rng : Int → Int)
    (hwf : ChainWF c) (hr : ValidRng rng) (hlen : p.length = c.prefixLen) :
    (∀ i0, i0 ≤ c.prefixLen → populated c (tailKey p i0) = true →
      (∀ j, j < i0 → populated c (tailKey p j) = false) →
      Chain.NextWord rng c p ≠ ("") ∧
      recordedUnder c (tailKey p i0) (Chain.NextWord rng c p)) ∧
    (Chain.NextWord rng c p = ("") ↔
      ∀ i, i ≤ c.prefixLen → populated c (tailKey p i) = false) := by
  have hmain : ∀ i0, i0 ≤ c.prefixLen → populated c (tailKey p i0) = true →
      (∀ j, j < i0 → populated c (tailKey p j) = false) →
      Chain.NextWord rng c p ≠ ("") ∧
      recordedUnder c (tailKey p i0) (Chain.NextWord rng c p) := by
    intro i0 hle hpop hmin
    rcases range_split i0 c.prefixLen hle with ⟨rest, hsplit⟩
    have h1 : ∀ j ∈ List.range i0, populated c (tailKey p j) = false :=
      fun j hj => hmin j (List.mem_range.mp hj)
    rcases nextWordAux_first rng c p hwf hr (List.range i0) i0 rest h1 hpop with
      ⟨m, f, hl, hm, hne⟩
    have hunf : Chain.NextWord rng c p =
        nextWordAux rng c p (List.range i0 ++ i0 :: rest) := by
      rw [Chain.NextWord, hsplit]
    rw [hunf]
    exact ⟨hne, m, f, hl, hm⟩
  refine ⟨hmain, ?_, ?_⟩
  · intro hempty i hile
    by_contra hc
    have hP : populated c (tailKey p i) = true := by
      cases hpt : populated c (tailKey p i)
      · exact absurd hpt hc
      · rfl
    have hex : ∃ j, populated c (tailKey p j) = true := ⟨i, hP⟩
    have hP0 : populated c (tailKey p (Nat.find hex)) = true := Nat.find_spec hex
    have hle0 : Nat.find hex ≤ c.prefixLen := le_trans (Nat.find_min' hex hP) hile
    have hmin : ∀ j, j < Nat.find hex → populated c (tailKey p j) = false := by
      intro j hj
      have hnt := Nat.find_min hex hj
      cases hpt : populated c (tailKey p j)
      · rfl
      · exact absurd hpt hnt
    exact (hmain (Nat.find hex) hle0 hP0 hmin).1 hempty
  · intro hall
    exact nextWordAux_none rng c p hwf (List.range (c.prefixLen + 1))
      (fun i hi => hall i (Nat.lt_succ_iff.mp (List.mem_range.mp hi)))

/-- Witness for C1: a chain populated only at the empty key, queried
with a fully unobserved prefix, falls back to the empty key. -/
theorem nextWord_fallback_witness :
    Chain.NextWord (fun _ => 0) ⟨[(("") , [(("hi"), 1)])], 2⟩ [("a"), ("b")] ≠ ("") ∧
    recordedUnder ⟨[(("") , [(("hi"), 1)])], 2⟩ (tailKey [("a"), ("b")] 2)
      (Chain.NextWord (fun _ => 0) ⟨[(("") , [(("hi"), 1)])], 2⟩ [("a"), ("b")]) := by
  have hwf : ChainWF ⟨[(("") , [(("hi"), 1)])], 2⟩ := by
    intro k m hm w f hwf2
    simp at hm
    rcases hm with ⟨hk, hmm⟩
    subst hmm
    simp at hwf2
    rcases hwf2 with ⟨hw, hf⟩
    subst hw
    subst hf
    exact ⟨by decide, by decide⟩
  have h := nextWord_fallback ⟨[(("") , [(("hi"), 1)])], 2⟩ [("a"), ("b")] (fun _ => 0)
    hwf (fun t ht => ⟨le_refl 0, ht⟩) rfl
  exact h.1 2 (by decide) (by decide) (fun j hj => by interval_cases j <;> decide)

/-- Claim C2: for a key whose suffix map has positive total weight,
the weighted scan over the drawn cursor rand.Intn(total) returns a
suffix, and under the chain invariant that suffix has a positive
recorded count in the suffix map of that key. -/
theorem nextWord_weighted_positive (c : Chain) (k : String) (m : List (String × Int))
    (rng : Int → Int) (hwf : ChainWF c) (hl : alookup c.chain k = some m)
    (ht : 0 < sumFreqs m) (hr : ValidRng rng) :
    ∃ w f, pickWord m (rng (sumFreqs m)) = some w ∧ (w, f) ∈ m ∧ 0 < f := by
  rcases hr (sumFreqs m) ht with ⟨h0, h1⟩
  rcases pickWord_mem m (rng (sumFreqs m)) h0 h1 with ⟨w, f, hp, hm⟩
  exact ⟨w, f, hp, hm, (chainWF_at c hwf k m hl w f hm).1⟩

/-- Witness for C2 at a concrete two-entry suffix map. -/
theorem nextWord_weighted_positive_witness :
    ∃ w f, pickWord ([(("a"), 2), (("b"), 1)] : List (String × Int))
        ((fun t => t - 1) (sumFreqs [(("a"), 2), (("b"), 1)])) = some w ∧
      (w, f) ∈ ([(("a"), 2), (("b"), 1)] : List (String × Int)) ∧ 0 < f := by
  have hwf : ChainWF ⟨[(("k"), [(("a"), 2), (("b"), 1)])], 1⟩ := by
    intro k m hm w f hwf2
    simp at hm
    rcases hm with ⟨hk, hmm⟩
    subst hmm
    simp at hwf2
    rcases hwf2 with ⟨hw, hf⟩ | ⟨hw, hf⟩ <;> subst hw <;> subst hf
    · exact ⟨by decide, by decide⟩
    · exact ⟨by decide, by decide⟩
  exact nextWord_weighted_positive ⟨[(("k"), [(("a"), 2), (("b"), 1)])], 1⟩ ("k")
    [(("a"), 2), (("b"), 1)] (fun t => t - 1) hwf (by decide) (by decide)
    (fun t ht => ⟨by show (0:Int) ≤ t - 1; omega, by show t - 1 < t; omega⟩)

theorem fieldsAux_append_space (sp : Char) (hsp : isSpc sp = true) (b : List Char) :
    ∀ (a : List Char) (cur : List Char),
    fieldsAux (a ++ sp :: b) cur = fieldsAux a cur ++ fieldsAux b [] := by
  intro a
  induction a with
  | nil =>
    intro cur
    by_cases hcur : cur = []
    · simp [fieldsAux, hsp, hcur]
    · simp [fieldsAux, hsp, hcur]
  | cons c a1 ih =>
    intro cur
    by_cases hc : isSpc c = true
    · by_cases hcur : cur = []
      · simp [fieldsAux, hc, hcur, ih]
      · simp [fieldsAux, hc, hcur, ih]
    · simp only [List.cons_append, fieldsAux, hc]
      simp only [Bool.false_eq_true, if_neg]
      exact ih (c :: cur)

theorem fields_joinSep_space (sp : Char) (hsp : isSpc sp = true) :
    ∀ ls : List (List Char),
    fields (joinSep [sp] ls) = (ls.map fields).flatten := by
  intro ls
  induction ls with
  | nil => rfl
  | cons x t ih =>
    cases t with
    | nil => simp [joinSep]
    | cons y t2 =>
      have hj : joinSep [sp] (x :: y :: t2) = x ++ sp :: joinSep [sp] (y :: t2) := by
        simp [joinSep]
      rw [hj]
      show fieldsAux (x ++ sp :: joinSep [sp] (y :: t2)) [] = _
      rw [fieldsAux_append_space sp hsp (joinSep [sp] (y :: t2)) x []]
      show fields x ++ fields (joinSep [sp] (y :: t2)) = _
      rw [ih]
      simp

theorem fieldsAux_word (w : List Char) : ∀ cur : List Char, w ≠ [] →
    (∀ ch ∈ w, isSpc ch = false) → fieldsAux w cur = [cur.reverse ++ w] := by
  induction w with
  | nil => intro cur h; exact absurd rfl h
  | cons c w1 ih =>
    intro cur _ hns
    have hc : isSpc c = false := hns c (by simp)
    cases hw1 : w1 with
    | nil =>
      simp [fieldsAux, hc]
    | cons d w2 =>
      rw [← hw1]
      have hr := ih (c :: cur) (by simp [hw1]) (fun ch hch => hns ch (by simp [hch]))
      simp only [fieldsAux, hc, Bool.false_eq_true, if_neg]
      rw [hr]
      simp

theorem fields_word (w : List Char) (hne : w ≠ [])
    (hns : ∀ ch ∈ w, isSpc ch = false) : fields w = [w] := by
  have := fieldsAux_word w [] hne hns
  simpa [fields] using this

theorem fieldsAux_mem_props (s : List Char) : ∀ (cur : List Char),
    (∀ ch ∈ cur, isSpc ch = false) →
    ∀ w ∈ fieldsAux s cur, w ≠ [] ∧ ∀ ch ∈ w, isSpc ch = false := by
  induction s with
  | nil =>
    intro cur hcur w hw
    by_cases hc : cur = []
    · simp [fieldsAux, hc] at hw
    · simp only [fieldsAux, hc, if_neg] at hw
      simp at hw
      subst hw
      refine ⟨by simpa using hc, ?_⟩
      intro ch hch
      exact hcur ch (by simpa using hch)
  | cons c s1 ih =>
    intro cur hcur w hw
    by_cases hc : isSpc c = true
    · by_cases hcu : cur = []
      · simp only [fieldsAux, hc, if_pos, hcu, if_pos rfl] at hw
        exact ih [] (by simp) w (by simpa [hcu] using hw)
      · simp only [fieldsAux, hc, if_pos, if_neg hcu] at hw
        simp at hw
        rcases hw with hw | hw
        · subst hw
          refine ⟨by simpa using hcu, ?_⟩
          intro ch hch
          exact hcur ch (by simpa using hch)
        · exact ih [] (by simp) w hw
    · simp only [fieldsAux, hc, Bool.false_eq_true, if_neg] at hw
      refine ih (c :: cur) ?_ w hw
      intro ch hch
      simp at hch
      rcases hch with hch | hch
      · subst hch
        simpa using hc
      · exact hcur ch hch

theorem fields_mem_props (s : List Char) (w : List Char) (hw : w ∈ fields s) :
    w ≠ [] ∧ ∀ ch ∈ w, isSpc ch = false :=
  fieldsAux_mem_props s [] (by simp) w hw

theorem flatten_map_fields (g : List (List Char))
    (h : ∀ w ∈ g, w ≠ [] ∧ ∀ ch ∈ w, isSpc ch = false) :
    (g.map fields).flatten = g := by
  induction g with
  | nil => rfl
  | cons w t ih =>
    have hw := h w (by simp)
    simp only [List.map, List.flatten_cons]
    rw [fields_word w hw.1 hw.2, ih (fun w2 h2 => h w2 (by simp [h2]))]
    rfl

theorem breakLoop_flatten (m : Int) (ws : List (List Char)) :
    ∀ (lines : List (List (List Char))) (line : List (List Char)) (len : Int),
    ((ws.foldl (breakStep m) (lines, line, len)).1 ++
      [(ws.foldl (breakStep m) (lines, line, len)).2.1]).flatten =
    (lines ++ [line]).flatten ++ ws := by
  induction ws with
  | nil => intro lines line len; simp
  | cons w ws1 ih =>
    intro lines line len
    rw [List.foldl_cons]
    show ((ws1.foldl (breakStep m) (breakStep m (lines, line, len) w)).1 ++ _).flatten = _
    by_cases hc : len + ((w.length : Int) + 1) > m ∧ len ≠ 0
    · have hstep : breakStep m (lines, line, len) w =
          (lines ++ [line], [w], -1 + ((w.length : Int) + 1)) := by
        simp only [breakStep, if_pos hc]
      rw [hstep, ih]
      simp [List.flatten_append]
    · have hstep : breakStep m (lines, line, len) w =
          (lines, line ++ [w], len + ((w.length : Int) + 1)) := by
        simp only [breakStep, if_neg hc]
      rw [hstep, ih]
      simp [List.flatten_append]

/-- Claim C10: line breaking only regroups the words: splitting the
output of BreakLines on whitespace gives back exactly the words of the
input, none dropped, duplicated, reordered or altered. -/
theorem breakLines_preserves_words (s : List Char) (maxLine : Int) (hm : 0 < maxLine) :
    fields (BreakLines s maxLine) = fields s := by
  have hBL : BreakLines s maxLine = joinSep ['\n']
      ((((fields s).foldl (breakStep maxLine) ([], [], -1)).1 ++
        [((fields s).foldl (breakStep maxLine) ([], [], -1)).2.1]).map (joinSep [' '])) := rfl
  have hflat : (((fields s).foldl (breakStep maxLine) ([], [], -1)).1 ++
      [((fields s).foldl (breakStep maxLine) ([], [], -1)).2.1]).flatten = fields s := by
    rw [breakLoop_flatten maxLine (fields s) [] [] (-1)]
    simp
  rw [hBL, fields_joinSep_space '\n' (by decide), List.map_map]
  have hinner : ∀ g : List (List Char), (fields ∘ joinSep [' ']) g = (g.map fields).flatten :=
    fun g => fields_joinSep_space ' ' (by decide) g
  rw [List.map_congr_left (fun g _ => hinner g)]
  have hid : ∀ g ∈ (((fields s).foldl (breakStep maxLine) ([], [], -1)).1 ++
      [((fields s).foldl (breakStep maxLine) ([], [], -1)).2.1]),
      (g.map fields).flatten = g := by
    intro g hg
    refine flatten_map_fields g ?_
    intro w hw
    refine fields_mem_props s w ?_
    rw [← hflat]
    exact List.mem_flatten.mpr ⟨g, hg, hw⟩
  rw [List.map_congr_left hid]
  simp only [List.map_id']
  exact hflat

/-- Witness for C10 at a concrete string and width. -/
theorem breakLines_preserves_words_witness :
    fields (BreakLines ['a', 'a', ' ', 'b', 'b', ' ', 'c'] 3) =
      fields ['a', 'a', ' ', 'b', 'b', ' ', 'c'] :=
  breakLines_preserves_words ['a', 'a', ' ', 'b', 'b', ' ', 'c'] 3 (by decide)

theorem mem_setAssoc {β : Type} (l : List (String × β)) (k : String) (v : β)
    (x : String × β) (h : x ∈ setAssoc l k v) : x ∈ l ∨ x = (k, v) := by
  induction l with
  | nil =>
    simp [setAssoc] at h
    simp [h]
  | cons a rest ih =>
    rw [show a = (a.1, a.2) from rfl] at h ⊢
    simp only [setAssoc] at h
    by_cases hc : a.1 = k
    · rw [if_pos hc] at h
      simp at h
      rcases h with h | h
      · simp [h]
      · simp [h]
    · rw [if_neg hc] at h
      simp at h
      rcases h with h | h
      · simp [h]
      · rcases ih h with h2 | h2
        · simp [h2]
        · simp [h2]

/-- The fresh chain satisfies the data-model invariant. -/
theorem chainWF_new (plen : Nat) : ChainWF (NewChain plen) := by
  intro k m hm
  simp [NewChain] at hm

/-- Add preserves the data-model invariant when the added suffix is a
nonempty word: every count it writes is a previous count plus one, and
previous counts are positive. -/
theorem chainWF_add (c : Chain) (p : List String) (s : String)
    (hwf : ChainWF c) (hs : s ≠ ("")) : ChainWF (c.Add p s) := by
  have hstep : ∀ (ch : List (String × List (String × Int))) (i : Nat),
      (∀ k m, (k, m) ∈ ch → ∀ w f, (w, f) ∈ m → 0 < f ∧ w ≠ ("")) →
      ∀ k m, (k, m) ∈ (if i < c.prefixLen ∧ p.getD i ("") = ("") then ch
        else setAssoc ch (joinWords (p.drop i))
          (setAssoc ((alookup ch (joinWords (p.drop i))).getD []) s
            (((alookup ((alookup ch (joinWords (p.drop i))).getD []) s).getD 0) + 1))) →
      ∀ w f, (w, f) ∈ m → 0 < f ∧ w ≠ ("") := by
    intro ch i hch k m hm w f hwf2
    by_cases hcond : i < c.prefixLen ∧ p.getD i ("") = ("")
    · rw [if_pos hcond] at hm
      exact hch k m hm w f hwf2
    · rw [if_neg hcond] at hm
      have hmold : ∀ w2 f2,
          (w2, f2) ∈ (alookup ch (joinWords (p.drop i))).getD [] → 0 < f2 ∧ w2 ≠ ("") := by
        intro w2 f2 h2
        cases hlk : alookup ch (joinWords (p.drop i)) with
        | none => rw [hlk] at h2; simp at h2
        | some m0 =>
          rw [hlk] at h2
          simp at h2
          exact hch (joinWords (p.drop i)) m0
            (alookup_mem ch (joinWords (p.drop i)) m0 hlk) w2 f2 h2
      rcases mem_setAssoc ch (joinWords (p.drop i)) _ (k, m) hm with h2 | h2
      · exact hch k m h2 w f hwf2
      · have hmeq : m = setAssoc ((alookup ch (joinWords (p.drop i))).getD []) s
            (((alookup ((alookup ch (joinWords (p.drop i))).getD []) s).getD 0) + 1) := by
          have := congrArg Prod.snd h2
          simpa using this
        rw [hmeq] at hwf2
        rcases mem_setAssoc _ s _ (w, f) hwf2 with h3 | h3
        · exact hmold w f h3
        · have hw : w = s := by have := congrArg Prod.fst h3; simpa using this
          have hf : f = ((alookup ((alookup ch (joinWords (p.drop i))).getD []) s).getD 0) + 1 := by
            have := congrArg Prod.snd h3
            simpa using this
          refine ⟨?_, by rw [hw]; exact hs⟩
          cases hlk2 : alookup ((alookup ch (joinWords (p.drop i))).getD []) s with
          | none => rw [hlk2] at hf; simp at hf; omega
          | some f0 =>
            have hpos := (hmold s f0 (alookup_mem _ s f0 hlk2)).1
            rw [hlk2] at hf
            simp at hf
            omega
  have hfold : ∀ (is : List Nat) (ch : List (String × List (String × Int))),
      (∀ k m, (k, m) ∈ ch → ∀ w f, (w, f) ∈ m → 0 < f ∧ w ≠ ("")) →
      ∀ k m, (k, m) ∈ is.foldl (fun ch2 i =>
        if i < c.prefixLen ∧ p.getD i ("") = ("") then ch2
        else setAssoc ch2 (joinWords (p.drop i))
          (setAssoc ((alookup ch2 (joinWords (p.drop i))).getD []) s
            (((alookup ((alookup ch2 (joinWords (p.drop i))).getD []) s).getD 0) + 1))) ch →
      ∀ w f, (w, f) ∈ m → 0 < f ∧ w ≠ ("") := by
    intro is
    induction is with
    | nil => intro ch hch; exact hch
    | cons i rest ih =>
      intro ch hch
      rw [List.foldl_cons]
      exact ih _ (hstep ch i hch)
  exact hfold (List.range (c.prefixLen + 1)) c.chain hwf

theorem strMk_ne_empty (l : List Char) (h : l ≠ []) : (⟨l⟩ : String) ≠ ("") := by
  intro he
  exact h (congrArg String.data he)

/-- Every token produced by the whitespace scan is a nonempty word. -/
theorem fieldsS_ne_empty (s : String) (w : String) (hw : w ∈ fieldsS s) : w ≠ ("") := by
  simp only [fieldsS, List.mem_map] at hw
  rcases hw with ⟨l, hl, hlw⟩
  rw [← hlw]
  exact strMk_ne_empty l (fields_mem_props s.data l hl).1

/-- Build preserves the data-model invariant: it only performs Add
with nonempty tokens. -/
theorem chainWF_build (c : Chain) (input : String) (hwf : ChainWF c) :
    ChainWF (c.Build input) := by
  have hgen : ∀ (ts : List String), (∀ t ∈ ts, t ≠ ("")) →
      ∀ (acc : Chain × List String), ChainWF acc.1 →
      ChainWF (ts.foldl (fun acc2 s =>
        (acc2.1.Add acc2.2 s, prefixShift acc2.2 s)) acc).1 := by
    intro ts
    induction ts with
    | nil => intro _ acc hacc; exact hacc
    | cons t rest ih =>
      intro hts acc hacc
      rw [List.foldl_cons]
      exact ih (fun t2 h2 => hts t2 (by simp [h2])) _
        (chainWF_add acc.1 acc.2 t hacc (hts t (by simp)))
  exact hgen (fieldsS input) (fun t ht => fieldsS_ne_empty input t ht)
    (c, List.replicate c.prefixLen ("")) hwf
